import Mathlib

/-! ASTM noise analysis tool — shallow embedding and verification

This file embeds the core of the ASTM noise-analysis tool (files
`convexHull.py`, `data_processor.py` and `ASTMnoise.py`) in Lean 4 and
settles the frozen claims about it.

Modelling conventions:
* Python floats are idealised as exact rationals (`ℚ`).  Where the source
  compares a Euclidean norm `√(dx²+dy²)` against a constant, the embedding
  compares the squares, which is exactly equivalent over the reals; where
  the source divides two quantities that share the factor `1/√(dx²+dy²)`,
  the embedding uses the exactly-equal cancelled form.  Each such spot is
  commented at the definition.
* `scipy.spatial.ConvexHull` is an external library; it is modelled by an
  Andrew monotone-chain hull together with scipy's documented behaviour of
  raising `QhullError` when the 2-D input is degenerate (all points
  collinear, i.e. fewer than 3 hull vertices).
* `np.loadtxt` is external as well: each input file is modelled as either a
  parse error or the parsed list of rows `(time, col2, col4)` — the three
  columns the program reads.
* Python exceptions are modelled with `Except`; the per-file `try/except`
  blocks catch them and append a warning, exactly as the source prints one.
-/

/-- A 2-D point `(time, intensity)` as handed to the noise metric. -/
abbrev Pt : Type := ℚ × ℚ

/-- A parsed data row: column 0 (time), column 2 (Main), column 4 (Reference). -/
abbrev Row : Type := ℚ × ℚ × ℚ

/-! ### Kernel-computable rational arithmetic

The library's `+`, `-`, `*`, `/`, `⁻¹`, `|·|`, `min`, `max` on `ℚ` are
`@[irreducible]`, so closed terms built from them do not reduce inside the
kernel and `decide` cannot evaluate the embedding on concrete inputs.  The
definitions below compute (they reduce through `mkRat`), and each is proved
equal to the corresponding library operation, so they are the same rational
arithmetic in computable clothing. -/

/-- Computable addition on `ℚ`. -/
def qadd (a b : ℚ) : ℚ := mkRat (a.num * b.den + b.num * a.den) (a.den * b.den)

/-- Computable subtraction on `ℚ`. -/
def qsub (a b : ℚ) : ℚ := mkRat (a.num * b.den - b.num * a.den) (a.den * b.den)

/-- Computable multiplication on `ℚ`. -/
def qmul (a b : ℚ) : ℚ := mkRat (a.num * b.num) (a.den * b.den)

/-- Computable inverse on `ℚ` (0 for 0). -/
def qinv (a : ℚ) : ℚ :=
  if 0 ≤ a.num then mkRat a.den a.num.natAbs else mkRat (-(a.den : ℤ)) a.num.natAbs

/-- Computable division on `ℚ`. -/
def qdiv (a b : ℚ) : ℚ := qmul a (qinv b)

/-- Computable negation on `ℚ`. -/
def qneg (a : ℚ) : ℚ := mkRat (-a.num) a.den

/-- Computable absolute value on `ℚ`. -/
def qabs (a : ℚ) : ℚ := if a < 0 then qneg a else a

/-- Computable binary minimum on `ℚ`. -/
def qmin (a b : ℚ) : ℚ := if a ≤ b then a else b

/-- Computable binary maximum on `ℚ`. -/
def qmax (a b : ℚ) : ℚ := if a ≤ b then b else a

theorem qadd_eq (a b : ℚ) : qadd a b = a + b := (Rat.add_def' a b).symm

theorem qsub_eq (a b : ℚ) : qsub a b = a - b := (Rat.sub_def' a b).symm

theorem qmul_eq (a b : ℚ) : qmul a b = a * b := by
  rw [qmul, ← Rat.normalize_eq_mkRat, ← Rat.mul_def]

theorem qneg_eq (a : ℚ) : qneg a = -a := by
  rw [qneg, ← Rat.neg_mkRat, Rat.mkRat_self]

theorem qinv_eq (a : ℚ) : qinv a = a⁻¹ := by
  show qinv a = a.inv
  rw [Rat.inv_def, qinv]
  by_cases h : 0 ≤ a.num
  · rw [if_pos h, ← Int.natAbs_of_nonneg h, Rat.divInt_ofNat, Int.natAbs_of_nonneg h]
  · rw [if_neg h]
    push_neg at h
    rw [show (a.num : ℤ) = -(a.num.natAbs : ℤ) by omega, Rat.divInt_neg', Rat.divInt_ofNat]
    rw [Int.natAbs_neg, Int.natAbs_ofNat]

theorem qdiv_eq (a b : ℚ) : qdiv a b = a / b := by
  rw [qdiv, qmul_eq, qinv_eq, div_eq_mul_inv]

theorem qabs_eq (a : ℚ) : qabs a = |a| := by
  rw [qabs]
  by_cases h : a < 0
  · rw [if_pos h, qneg_eq, abs_of_neg h]
  · rw [if_neg h, abs_of_nonneg (not_lt.mp h)]

theorem qmin_eq (a b : ℚ) : qmin a b = min a b := (min_def a b).symm

theorem qmax_eq (a b : ℚ) : qmax a b = max a b := (max_def a b).symm

/-- `1e-13`, the degeneracy guard used by `calculate_max_noise`. -/
def eps13 : ℚ := mkRat 1 (10 ^ 13)

/-- `1e13`, the guard scale factor and sentinel used by `calculate_max_noise`. -/
def big13 : ℚ := mkRat (10 ^ 13) 1

/-- `1e-9`, the sampling-interval guard used by `calculate_subset_size`. -/
def eps9 : ℚ := mkRat 1 (10 ^ 9)

/-- `np.min` over a nonempty list (0 on the empty list, never used there). -/
def listMin : List ℚ → ℚ
  | [] => 0
  | x :: xs => xs.foldl qmin x

/-- `np.max` over a nonempty list (0 on the empty list, never used there). -/
def listMax : List ℚ → ℚ
  | [] => 0
  | x :: xs => xs.foldl qmax x

/-- Round a rational to the nearest integer, ties to even — the rounding mode
of `np.round`. -/
def roundHalfEven (q : ℚ) : ℤ :=
  let f : ℤ := Rat.floor q
  let r : ℚ := qsub q (mkRat f 1)
  if r < mkRat 1 2 then f
  else if mkRat 1 2 < r then f + 1
  else if 2 ∣ f then f else f + 1

/-- `np.round(x, decimals=2)`. -/
def npRound2 (q : ℚ) : ℚ := mkRat (roundHalfEven (qmul q (mkRat 100 1))) 100

/-- Round both coordinates of a point to 2 decimals, as
`np.round(subset, decimals=2)` does. -/
def roundPt (p : Pt) : Pt := (npRound2 p.1, npRound2 p.2)

/-- Cross product `(a-o) × (b-o)`; positive when `o→a→b` is a left turn. -/
def cross (o a b : Pt) : ℚ :=
  qsub (qmul (qsub a.1 o.1) (qsub b.2 o.2)) (qmul (qsub a.2 o.2) (qsub b.1 o.1))

/-- Insert a point into a list sorted lexicographically by `(x, y)`. -/
def insertPt (p : Pt) : List Pt → List Pt
  | [] => [p]
  | q :: qs =>
    if p.1 < q.1 ∨ (p.1 = q.1 ∧ p.2 ≤ q.2) then p :: q :: qs else q :: insertPt p qs

/-- Sort points lexicographically by `(x, y)` (insertion sort). -/
def sortPts : List Pt → List Pt
  | [] => []
  | p :: ps => insertPt p (sortPts ps)

/-- Pop chain points that do not make a strict left turn towards `p`.
The stack is kept top-first. -/
def popChain : List Pt → Pt → List Pt
  | b :: a :: rest, p => if cross a b p ≤ 0 then popChain (a :: rest) p else b :: a :: rest
  | st, _ => st

/-- One step of the monotone-chain construction: pop, then push `p`. -/
def chainStep (st : List Pt) (p : Pt) : List Pt := p :: popChain st p

/-- Build one monotone chain over the given point sequence (result top-first). -/
def chainFold (pts : List Pt) : List Pt := pts.foldl chainStep []

/-- Andrew monotone-chain convex hull: vertices in counter-clockwise order,
starting from the lexicographically smallest point.  Stands in for the vertex
cycle `points[ConvexHull(points).vertices]` computed by scipy/Qhull. -/
def monotoneChainHull (pts : List Pt) : List Pt :=
  let sorted := sortPts pts
  let lower := (chainFold sorted).reverse
  let upper := (chainFold sorted.reverse).reverse
  lower.dropLast ++ upper.dropLast

/-- Model of `scipy.spatial.ConvexHull` applied to 2-D input: returns the hull
vertex cycle, and raises `QhullError` when the input is degenerate (flat —
fewer than 3 hull vertices), which is scipy's documented behaviour for
collinear 2-D input. -/
def scipyConvexHullVertices (pts : List Pt) : Except String (List Pt) :=
  let h := monotoneChainHull pts
  if h.length < 3 then .error "QhullError" else .ok h

/-- The body of the edge loop of `calculate_max_noise` (convexHull.py lines
31-60) for the edge `p → q` of the hull `hullPts`.

Exact-arithmetic translation notes (all equalities exact over ℝ):
* `norm_vector = √(dx²+dy²)`, so `norm_vector < 1e-13 ⟺ dx²+dy² < (1e-13)²`.
* In the guard branch, `cos = dx·1e13` and `sin = dy·1e13` are plain numbers
  and the rotated y-coordinate `sin·x + cos·y` is used literally.
* In the normalised branch, `cos = dx/norm`, `sin = dy/norm`; the rotated
  y-coordinate is `(dy·x + dx·y)/norm`, so
  `abs(cos) > 1e-13 ⟺ dx² > (1e-13)²·(dx²+dy²)` and
  `(max_y − min_y)/cos = (max(dy·x+dx·y) − min(dy·x+dx·y))/dx`, the shared
  factor `1/norm` cancelling exactly.

Each of these equivalences is proved over `ℝ` in the section "Soundness of
the exact-arithmetic translation" below (`sqrt_lt_iff_sq_lt`,
`abs_div_sqrt_gt_iff`, `rotated_y_div`, `foldl_max_map_div`,
`foldl_min_map_div`, `extent_div_cancel`). -/
def edgeNoise (hullPts : List Pt) (p q : Pt) : ℚ :=
  let dx := qsub q.1 p.1
  let dy := qsub q.2 p.2
  let normSq := qadd (qmul dx dx) (qmul dy dy)
  if normSq < qmul eps13 eps13 then
    -- norm_vector < 1e-13: cos_angle = dx*1e13, sin_angle = dy*1e13
    let c := qmul dx big13
    let s := qmul dy big13
    let ys := hullPts.map (fun r => qadd (qmul s r.1) (qmul c r.2))
    let extent := qsub (listMax ys) (listMin ys)
    if eps13 < qabs c then qabs (qdiv extent c) else qabs big13
  else
    -- cos_angle = dx/norm, sin_angle = dy/norm (see the cancellation note)
    let ys := hullPts.map (fun r => qadd (qmul dy r.1) (qmul dx r.2))
    let extent := qsub (listMax ys) (listMin ys)
    if qmul (qmul eps13 eps13) normSq < qmul dx dx then qabs (qdiv extent dx)
    else qabs big13

/-- `noiseList` built by the loop `for i in range(len(K) - 1)` of
`calculate_max_noise`: one candidate per hull edge `i → i+1`,
`i = 0 .. m-2`. -/
def noiseList (hull : List Pt) : List ℚ :=
  (List.range (hull.length - 1)).map
    (fun i => edgeNoise hull (hull.getD i (0, 0)) (hull.getD (i + 1) (0, 0)))

/-- `np.min(noiseList)` — the part of `calculate_max_noise` that runs after the
hull has been obtained (convexHull.py lines 18-63). -/
def calcNoiseFromHull (hull : List Pt) : ℚ := listMin (noiseList hull)

/-- `calculate_max_noise` (convexHull.py): fewer than 3 points returns `0.0`;
otherwise the convex hull is built (scipy raises `QhullError` on degenerate
input, which propagates) and the minimum edge candidate is returned. -/
def calculate_max_noise (points : List Pt) : Except String ℚ :=
  if points.length < 3 then .ok 0
  else (scipyConvexHullVertices points).map calcNoiseFromHull

/-! ## The aggregation pipeline -/

/-- One interval record
`(start_time, end_time, noise_value, file_index, channel, filename)` as
appended by `process_subsets`. -/
structure IntervalRec where
  start_time : ℚ
  end_time : ℚ
  noise_value : ℚ
  file_index : ℕ
  channel : String
  filename : String
deriving DecidableEq, Repr

instance {ε α : Type _} [DecidableEq ε] [DecidableEq α] : DecidableEq (Except ε α)
  | .ok a, .ok b =>
    if h : a = b then .isTrue (congrArg Except.ok h)
    else .isFalse fun he => h (Except.ok.inj he)
  | .error a, .error b =>
    if h : a = b then .isTrue (congrArg Except.error h)
    else .isFalse fun he => h (Except.error.inj he)
  | .ok _, .error _ => .isFalse fun he => Except.noConfusion he
  | .error _, .ok _ => .isFalse fun he => Except.noConfusion he

/-- An input file as the pipeline sees it: its basename plus the result of
`np.loadtxt` — either the parsed rows or a read/parse exception
(`FileNotFoundError`, `ValueError`, `IndexError`, ...). -/
structure FileInput where
  name : String
  data : Except String (List Row)
deriving DecidableEq, Repr

/-- The mutable collections of a run: the fields of `NoiseDataProcessor`
(data_processor.py) and, equally, the local lists of
`load_and_calculate_noise_multiple` (ASTMnoise.py).  `warnings` collects the
per-file error reports the source prints. -/
structure DPState where
  file_names : List String
  all_main_noise_values : List ℚ
  all_ref_noise_values : List ℚ
  main_noise_intervals : List IntervalRec
  ref_noise_intervals : List IntervalRec
  raw_t_main : List ℚ
  raw_i_main : List ℚ
  raw_t_ref : List ℚ
  raw_i_ref : List ℚ
  warnings : List String
deriving DecidableEq, Repr

/-- The empty starting state of a run. -/
def initState : DPState := ⟨[], [], [], [], [], [], [], [], [], []⟩

/-- Append one warning (the source prints it). -/
def addWarning (st : DPState) (w : String) : DPState :=
  { st with warnings := st.warnings ++ [w] }

/-- `calculate_subset_size` (data_processor.py lines 80-87; identically
ASTMnoise.py lines 149-155): fewer than 2 rows gives 100, otherwise
`max(3, floor(30 / (delta_val if delta_val > 1e-9 else 0.15)))` with
`delta_val = abs(data[1,0] - data[0,0])` from the file's raw times. -/
def calculate_subset_size (rows : List Row) : ℕ :=
  if rows.length < 2 then 100
  else
    let delta_val := qabs (qsub (rows.getD 1 (0, 0, 0)).1 (rows.getD 0 (0, 0, 0)).1)
    max 3 (Int.toNat
      (Rat.floor (qdiv (mkRat 30 1) (if eps9 < delta_val then delta_val else mkRat 3 20))))

/-- The full-length subsets kept by the loop
`for i in range(0, points_len, subset_size)` with its
`if i + subset_size > points_len: break` guard: exactly the
`⌊len/ss⌋` contiguous chunks of length `ss` (`ss ≥ 3` whenever it comes from
`calculate_subset_size`, so the `range` step is never 0). -/
def fullSubsets (points : List Pt) (ss : ℕ) : List (List Pt) :=
  (List.range (points.length / ss)).map (fun j => ((points.drop (j * ss)).take ss))

/-- The body of the subset loop of `process_subsets` for one full-length
chunk: round it, and when it has more than two points score it with
`calculate_max_noise` (whose exception propagates) and append the value and
the interval record. -/
def subsetStep (channel : String) (file_index : ℕ) (adj : ℚ) (fname : String)
    (acc : List ℚ × List IntervalRec) (chunk : List Pt) :
    Except String (List ℚ × List IntervalRec) := do
  let subset := chunk.map roundPt
  if 2 < subset.length then do
    let noise_val ← calculate_max_noise subset
    let start_time := qadd (subset.getD 0 (0, 0)).1 adj
    let end_time := qadd (subset.getLastD (0, 0)).1 adj
    .ok (acc.1 ++ [noise_val],
         acc.2 ++ [⟨start_time, end_time, noise_val, file_index, channel, fname⟩])
  else .ok acc

/-- `process_subsets` (data_processor.py lines 89-116; the inner function of
ASTMnoise.py lines 157-183 is the same with `adj = file_start_offset_local`):
round each full-length subset to 2 decimals, score subsets of more than two
points with `calculate_max_noise`, and record
`(subset[0,0] + adj, subset[-1,0] + adj, noise, ...)`.  An exception from
`calculate_max_noise` propagates, discarding the partial local lists. -/
def process_subsets (points : List Pt) (channel : String) (file_index : ℕ)
    (ss : ℕ) (adj : ℚ) (fname : String) :
    Except String (List ℚ × List IntervalRec) :=
  (fullSubsets points ss).foldlM (subsetStep channel file_index adj fname) ([], [])

/-- `process_single_file` (data_processor.py lines 118-175).  Returns
`(time offset for the next file, success flag, new state)`.  Any exception is
caught: a warning is recorded and the incoming `time_offset` is returned.
Note the source's `time_offset_adjustment = new_time_offset -
(offset_times[-1] - times[-1])`, kept literally here. -/
def dp_process_single_file (st : DPState) (fi : FileInput) (file_index : ℕ)
    (time_offset : ℚ) : ℚ × Bool × DPState :=
  let st := if st.file_names.length ≤ file_index
            then { st with file_names := st.file_names ++ [fi.name] } else st
  match fi.data with
  | .error e => (time_offset, false, addWarning st (fi.name ++ ": " ++ e))
  | .ok rows =>
    match rows with
    | [] =>
      -- `offset_times[-1]` on an empty array raises IndexError, caught below
      (time_offset, false, addWarning st (fi.name ++ ": IndexError"))
    | _ :: _ =>
      let times := rows.map (·.1)
      let offset_times := times.map (fun t => qadd t time_offset)
      let st := { st with
        raw_t_main := st.raw_t_main ++ offset_times
        raw_i_main := st.raw_i_main ++ rows.map (·.2.1)
        raw_t_ref := st.raw_t_ref ++ offset_times
        raw_i_ref := st.raw_i_ref ++ rows.map (·.2.2) }
      let new_time_offset := offset_times.getLastD 0
      let pointsMain := times.zip (rows.map (·.2.1))
      let pointsRef := times.zip (rows.map (·.2.2))
      let subset_size := calculate_subset_size rows
      let adj := qsub new_time_offset (qsub (offset_times.getLastD 0) (times.getLastD 0))
      match process_subsets pointsMain "Main" file_index subset_size adj fi.name with
      | .error e => (time_offset, false, addWarning st (fi.name ++ ": " ++ e))
      | .ok (mv, mi) =>
        match process_subsets pointsRef "Reference" file_index subset_size adj fi.name with
        | .error e => (time_offset, false, addWarning st (fi.name ++ ": " ++ e))
        | .ok (rv, ri) =>
          (new_time_offset, true,
           { st with
             all_main_noise_values := st.all_main_noise_values ++ mv
             all_ref_noise_values := st.all_ref_noise_values ++ rv
             main_noise_intervals := st.main_noise_intervals ++ mi
             ref_noise_intervals := st.ref_noise_intervals ++ ri })

/-- The stop test of `process_files` (data_processor.py line 183): both
channels' total collected value counts have reached `max_intervals`. -/
def dpStopCond (st : DPState) (max_intervals : ℕ) : Prop :=
  max_intervals ≤ st.all_main_noise_values.length ∧
  max_intervals ≤ st.all_ref_noise_values.length

instance (st : DPState) (m : ℕ) : Decidable (dpStopCond st m) := by
  unfold dpStopCond; infer_instance

/-- The loop of `process_files` (data_processor.py lines 177-193): before each
file, break if both channels' total counts reached the target. -/
def dp_process_files_go (st : DPState) (time_offset : ℚ) (file_index : ℕ)
    (max_intervals : ℕ) : List FileInput → DPState
  | [] => st
  | fi :: rest =>
    if dpStopCond st max_intervals then st
    else
      let r := dp_process_single_file st fi file_index time_offset
      dp_process_files_go r.2.2 r.1 (file_index + 1) max_intervals rest

/-- `process_files` (data_processor.py): run over the file list starting from
the empty state and `time_offset = 0.0`. -/
def dp_process_files (files : List FileInput) (max_intervals : ℕ) : DPState :=
  dp_process_files_go initState 0 0 max_intervals files

/-- Per-channel noise statistics; `none` models the `np.nan` returned for an
empty value list. -/
structure NoiseStats where
  main_mean : Option ℚ
  main_max : Option ℚ
  ref_mean : Option ℚ
  ref_max : Option ℚ
  main_count : ℕ
  ref_count : ℕ
deriving DecidableEq, Repr

/-- `np.mean(l) if l else np.nan`. -/
def listMean (l : List ℚ) : Option ℚ :=
  if l.isEmpty then none else some (qdiv (l.foldl qadd 0) (mkRat l.length 1))

/-- `np.max(l) if l else np.nan`. -/
def listMaxOpt (l : List ℚ) : Option ℚ :=
  if l.isEmpty then none else some (listMax l)

/-- Build the statistics record from the two channels' value lists. -/
def mkNoiseStats (mainVals refVals : List ℚ) : NoiseStats :=
  ⟨listMean mainVals, listMaxOpt mainVals, listMean refVals, listMaxOpt refVals,
   mainVals.length, refVals.length⟩

/-- `get_statistics` (data_processor.py lines 195-213): truncate each
channel's full value list to the first `max_intervals` entries and take
mean/max/count of the truncation.  No window filtering happens here. -/
def dp_get_statistics (st : DPState) (max_intervals : ℕ) : NoiseStats :=
  let main_noise_truncated := st.all_main_noise_values.take max_intervals
  let ref_noise_truncated := st.all_ref_noise_values.take max_intervals
  ⟨listMean main_noise_truncated, listMaxOpt main_noise_truncated,
   listMean ref_noise_truncated, listMaxOpt ref_noise_truncated,
   main_noise_truncated.length, ref_noise_truncated.length⟩

/-- The record-walking loops of ASTMnoise.py lines 233-240: collect, in
order, the noise value of every interval record whose `start_time` lies in
`[analysis_start_seconds, analysis_end_seconds] = [1800, 5400]`. -/
def extractWindowNoise (rs : List IntervalRec) : List ℚ :=
  rs.foldl
    (fun acc r =>
      if 1800 ≤ r.start_time ∧ r.start_time ≤ 5400 then acc ++ [r.noise_value] else acc)
    []

/-- The statistics block of ASTMnoise.py lines 225-253: window-filter each
channel's records, truncate to the first 120 values, then mean/max/count. -/
def astm_get_statistics (st : DPState) : NoiseStats :=
  let main_noise_truncated := (extractWindowNoise st.main_noise_intervals).take 120
  let ref_noise_truncated := (extractWindowNoise st.ref_noise_intervals).take 120
  ⟨listMean main_noise_truncated, listMaxOpt main_noise_truncated,
   listMean ref_noise_truncated, listMaxOpt ref_noise_truncated,
   main_noise_truncated.length, ref_noise_truncated.length⟩

/-! ### High-noise selector -/

/-- One output group of the selector, keyed by `(start_time, file_idx)`. -/
structure NGroup where
  start_time : ℚ
  end_time : ℚ
  file_idx : ℕ
  filename : String
  main_noise : Option ℚ
  ref_noise : Option ℚ
  max_noise : ℚ
deriving DecidableEq, Repr

/-- Stable insertion (descending by `key`) — one step of Python's stable
`sorted(..., key=..., reverse=True)`. -/
def insertDescBy {α : Type _} (key : α → ℚ) (a : α) : List α → List α
  | [] => [a]
  | b :: bs => if key b ≤ key a then a :: b :: bs else b :: insertDescBy key a bs

/-- Python's stable `sorted(l, key=key, reverse=True)`. -/
def sortDescBy {α : Type _} (key : α → ℚ) : List α → List α
  | [] => []
  | a :: as_ => insertDescBy key a (sortDescBy key as_)

/-- Python's `l[:n]` for an `int` index `n`: a nonnegative stop keeps the
first `n` items, a negative stop drops the last `|n|` items. -/
def pySliceTake {α : Type _} (n : ℤ) (l : List α) : List α :=
  if 0 ≤ n then l.take n.toNat else l.take ((l.length : ℤ) + n).toNat

/-- Fresh group for a record (the dictionary entry created on first sight of
the key `(start_time, file_idx)`; `max_noise` starts at 0). -/
def newGroup (r : IntervalRec) : NGroup :=
  ⟨r.start_time, r.end_time, r.file_index, r.filename, none, none, 0⟩

/-- Store the record's noise on its channel's slot and bump `max_noise`. -/
def updGroup (g : NGroup) (r : IntervalRec) : NGroup :=
  { g with
    main_noise := if r.channel = "Main" then some r.noise_value else g.main_noise
    ref_noise := if r.channel = "Main" then g.ref_noise else some r.noise_value
    max_noise := max g.max_noise r.noise_value }

/-- Add one record to the group list, merging into the existing group with the
same `(start_time, file_idx)` key if any (dictionary insertion order kept). -/
def addRec : List NGroup → IntervalRec → List NGroup
  | [], r => [updGroup (newGroup r) r]
  | g :: gs, r =>
    if g.start_time = r.start_time ∧ g.file_idx = r.file_index
    then updGroup g r :: gs
    else g :: addRec gs r

/-- Group the selected records by `(start_time, file_idx)`. -/
def groupRecords (rs : List IntervalRec) : List NGroup := rs.foldl addRec []

/-- The shared selector body (data_processor.py lines 231-284 with window
`[0, 3600]`; ASTMnoise.py lines 256-307 with window `[1800, 5400]` — the two
copies are identical up to the hardcoded window bounds `lo`, `hi`):
window-filter the combined records, select by threshold or top-K slice,
group, and re-sort the groups descending by `max_noise`. -/
def highNoiseGroups (recs : List IntervalRec) (lo hi : ℚ) (n_intervals : ℤ)
    (noise_threshold : Option ℚ) : List NGroup :=
  let filtered_time_intervals :=
    recs.filter (fun r => decide (lo ≤ r.start_time ∧ r.start_time ≤ hi))
  let top_intervals :=
    match noise_threshold with
    | some th =>
      sortDescBy (·.noise_value)
        (filtered_time_intervals.filter (fun r => decide (th ≤ r.noise_value)))
    | none => pySliceTake n_intervals (sortDescBy (·.noise_value) filtered_time_intervals)
  sortDescBy (·.max_noise) (groupRecords top_intervals)

/-- `get_high_noise_intervals` (data_processor.py lines 231-284): the window
is hardcoded to `0 ≤ start_time ≤ 3600`. -/
def dp_get_high_noise_intervals (st : DPState) (n_intervals : ℤ)
    (noise_threshold : Option ℚ) : List NGroup :=
  highNoiseGroups (st.main_noise_intervals ++ st.ref_noise_intervals)
    0 3600 n_intervals noise_threshold

/-- The high-noise interval analysis of ASTMnoise.py lines 256-307: the window
is the analysis window `1800 ≤ start_time ≤ 5400`. -/
def astm_high_noise_groups (st : DPState) (n_intervals : ℤ)
    (noise_threshold : Option ℚ) : List NGroup :=
  highNoiseGroups (st.main_noise_intervals ++ st.ref_noise_intervals)
    1800 5400 n_intervals noise_threshold

/-! ### The monolithic loop of `load_and_calculate_noise_multiple` -/

/-- The early-stop test of ASTMnoise.py lines 196-201.  The two counting
generators read `analysis_start_seconds` / `analysis_end_seconds`, names that
are assigned only *after* the loop (lines 226-228) in the same function scope,
so evaluating a generator condition raises `UnboundLocalError`.  The
condition is evaluated exactly when the corresponding interval list is
nonempty; with both lists empty the sums are 0 and `0 >= 120` is false. -/
def astm_early_stop_check (mainIntervals refIntervals : List IntervalRec) :
    Except String Bool :=
  if mainIntervals.isEmpty then
    if refIntervals.isEmpty then .ok false
    else .error "UnboundLocalError"
  else .error "UnboundLocalError"

/-- One iteration of the file loop of ASTMnoise.py lines 118-214.  Returns
`(time offset for the next file, new state, break?)`.  The interval records
use `file_start_offset = time_offset`, the offset at which the file's samples
begin on the stitched timeline (line 131).  The early-stop check runs after
the extends of lines 188-191, so a raise there keeps the file's records but
is reported as an error and never breaks. -/
def astm_file_body (st : DPState) (time_offset : ℚ) (file_index : ℕ)
    (fi : FileInput) : ℚ × DPState × Bool :=
  let st := if st.file_names.length ≤ file_index
            then { st with file_names := st.file_names ++ [fi.name] } else st
  match fi.data with
  | .error e => (time_offset, addWarning st (fi.name ++ ": " ++ e), false)
  | .ok rows =>
    match rows with
    | [] => (time_offset, addWarning st (fi.name ++ ": IndexError"), false)
    | _ :: _ =>
      let file_start_offset := time_offset
      let times := rows.map (·.1)
      let offset_times := times.map (fun t => qadd t file_start_offset)
      let st := { st with
        raw_t_main := st.raw_t_main ++ offset_times
        raw_i_main := st.raw_i_main ++ rows.map (·.2.1)
        raw_t_ref := st.raw_t_ref ++ offset_times
        raw_i_ref := st.raw_i_ref ++ rows.map (·.2.2) }
      let new_time_offset := offset_times.getLastD 0
      let pointsMain := times.zip (rows.map (·.2.1))
      let pointsRef := times.zip (rows.map (·.2.2))
      let subset_size := calculate_subset_size rows
      -- line 144 already reassigned the loop's time_offset, so an exception
      -- below continues with the *updated* offset (unlike data_processor,
      -- whose handlers return the incoming offset)
      match process_subsets pointsMain "Main" file_index subset_size
              file_start_offset fi.name with
      | .error e => (new_time_offset, addWarning st (fi.name ++ ": " ++ e), false)
      | .ok (mv, mi) =>
        match process_subsets pointsRef "Reference" file_index subset_size
                file_start_offset fi.name with
        | .error e => (new_time_offset, addWarning st (fi.name ++ ": " ++ e), false)
        | .ok (rv, ri) =>
          let st := { st with
            all_main_noise_values := st.all_main_noise_values ++ mv
            all_ref_noise_values := st.all_ref_noise_values ++ rv
            main_noise_intervals := st.main_noise_intervals ++ mi
            ref_noise_intervals := st.ref_noise_intervals ++ ri }
          match astm_early_stop_check st.main_noise_intervals st.ref_noise_intervals with
          | .ok b => (new_time_offset, st, b)
          | .error e => (new_time_offset, addWarning st (fi.name ++ ": " ++ e), false)

/-- The file loop of ASTMnoise.py: run the body over the files, honouring the
break flag. -/
def astm_run_go (st : DPState) (time_offset : ℚ) (file_index : ℕ) :
    List FileInput → DPState
  | [] => st
  | fi :: rest =>
    let r := astm_file_body st time_offset file_index fi
    if r.2.2 then r.2.1 else astm_run_go r.2.1 r.1 (file_index + 1) rest

/-- Run the monolithic loop from the empty state with `time_offset = 0.0`. -/
def astm_run (files : List FileInput) : DPState := astm_run_go initState 0 0 files

/-! ## Spec-side definitions (written from the claims' words, for comparison) -/

/-- Claim C1's per-edge candidate *as the claim states it*: the guard
direction `(dx·1e13, dy·1e13)` when the edge length is below `1e-13`, and the
sentinel `1e13` instead of dividing when `|cos| < 1e-13` (so it divides
whenever `|cos| ≥ 1e-13`).  Norm comparisons and the division are written in
the same exact-arithmetic form as `edgeNoise`. -/
def claimEdgeCandidateStrict (hullPts : List Pt) (p q : Pt) : ℚ :=
  let dx := qsub q.1 p.1
  let dy := qsub q.2 p.2
  if qadd (qmul dx dx) (qmul dy dy) < qmul eps13 eps13 then
    let c := qmul dx big13
    let s := qmul dy big13
    if qabs c < eps13 then big13
    else
      let ys := hullPts.map (fun r => qadd (qmul s r.1) (qmul c r.2))
      qabs (qdiv (qsub (listMax ys) (listMin ys)) c)
  else
    -- |cos| < 1e-13 ⟺ dx² < (1e-13)²·(dx²+dy²); the division cancels to /dx
    if qmul dx dx < qmul (qmul eps13 eps13) (qadd (qmul dx dx) (qmul dy dy)) then big13
    else
      let ys := hullPts.map (fun r => qadd (qmul dy r.1) (qmul dx r.2))
      qabs (qdiv (qsub (listMax ys) (listMin ys)) dx)

/-- Claim C1's value as stated: the minimum, over exactly the `m-1` edges
joining consecutive hull vertices `0..m-2` to `1..m-1` (wrap-around excluded),
of the strict-boundary candidate. -/
def claimedMinOverEdgesStrict (hull : List Pt) : ℚ :=
  listMin (List.zipWith (claimEdgeCandidateStrict hull) hull hull.tail)

/-- Claim C1's description of `calculate_max_noise`, as stated. -/
def claimedMaxNoiseStrict (points : List Pt) : Except String ℚ :=
  if points.length < 3 then .ok 0
  else (scipyConvexHullVertices points).map claimedMinOverEdgesStrict

/-- The amended per-edge candidate: as `claimEdgeCandidateStrict`, but the
sentinel is used when `|cos| ≤ 1e-13` — dividing only when `|cos| > 1e-13`,
which is what the source's `if abs(cos_angle[i]) > 1e-13` does. -/
def specEdgeCandidate (hullPts : List Pt) (p q : Pt) : ℚ :=
  let dx := qsub q.1 p.1
  let dy := qsub q.2 p.2
  if qadd (qmul dx dx) (qmul dy dy) < qmul eps13 eps13 then
    let c := qmul dx big13
    let s := qmul dy big13
    if qabs c ≤ eps13 then big13
    else
      let ys := hullPts.map (fun r => qadd (qmul s r.1) (qmul c r.2))
      qabs (qdiv (qsub (listMax ys) (listMin ys)) c)
  else
    if qmul dx dx ≤ qmul (qmul eps13 eps13) (qadd (qmul dx dx) (qmul dy dy)) then big13
    else
      let ys := hullPts.map (fun r => qadd (qmul dy r.1) (qmul dx r.2))
      qabs (qdiv (qsub (listMax ys) (listMin ys)) dx)

/-- Claim C6's subset size *as stated*: the fallback `0.15` replaces `d`
exactly when `d < 1e-9`. -/
def claimedSubsetSizeStrict (rows : List Row) : ℕ :=
  if rows.length < 2 then 100
  else
    let d := qabs (qsub (rows.getD 1 (0, 0, 0)).1 (rows.getD 0 (0, 0, 0)).1)
    max 3 (Int.toNat (Rat.floor (qdiv (mkRat 30 1) (if d < eps9 then mkRat 3 20 else d))))

/-- Claim C6 amended: the fallback `0.15` replaces `d` exactly when
`d ≤ 1e-9`. -/
def claimedSubsetSizeAmended (rows : List Row) : ℕ :=
  if rows.length < 2 then 100
  else
    let d := qabs (qsub (rows.getD 1 (0, 0, 0)).1 (rows.getD 0 (0, 0, 0)).1)
    max 3 (Int.toNat (Rat.floor (qdiv (mkRat 30 1) (if d ≤ eps9 then mkRat 3 20 else d))))

/-! ## Concrete fixtures -/

/-- A point set whose hull's first edge has `cos = dx·1e13` of absolute value
exactly `1e-13`: the boundary between dividing and the sentinel. -/
def ptsBoundary : List Pt := [(0, 0), (mkRat 1 (10 ^ 26), 0), (mkRat 1 (2 * 10 ^ 26), 1)]

/-- A well-behaved 3-row data file (both channels give a proper triangle). -/
def rows0 : List Row := [(0, 5, 7), (10, 6, 8), (20, 5, 7)]

/-- The file input carrying `rows0`. -/
def file0 : FileInput := ⟨"f0.txt", .ok rows0⟩

/-- The state of the modular pipeline after processing `file0`. -/
def stDP0 : DPState := dp_process_files [file0] 120

/-- The state of the monolithic loop after processing `file0`. -/
def stA0 : DPState := astm_run [file0]


/-! ## Basic lemmas about the hull construction -/

theorem length_insertPt (p : Pt) (l : List Pt) :
    (insertPt p l).length = l.length + 1 := by
  induction l with
  | nil => rfl
  | cons q qs ih => by_cases h : p.1 < q.1 ∨ (p.1 = q.1 ∧ p.2 ≤ q.2) <;>
      simp [insertPt, h, ih]

theorem length_sortPts (l : List Pt) : (sortPts l).length = l.length := by
  induction l with
  | nil => rfl
  | cons p ps ih => simp [sortPts, length_insertPt, ih]

theorem mem_insertPt {a p : Pt} {l : List Pt} :
    a ∈ insertPt p l ↔ a = p ∨ a ∈ l := by
  induction l with
  | nil => simp [insertPt]
  | cons q qs ih =>
    by_cases h : p.1 < q.1 ∨ (p.1 = q.1 ∧ p.2 ≤ q.2)
    · simp [insertPt, h]
    · simp [insertPt, h, ih]; tauto

theorem mem_sortPts {a : Pt} {l : List Pt} : a ∈ sortPts l ↔ a ∈ l := by
  induction l with
  | nil => simp [sortPts]
  | cons p ps ih => simp [sortPts, mem_insertPt, ih]

theorem length_popChain_le (st : List Pt) (p : Pt) :
    (popChain st p).length ≤ st.length := by
  induction st with
  | nil => simp [popChain]
  | cons b rest ih =>
    cases rest with
    | nil => simp [popChain]
    | cons a rest2 =>
      by_cases h : cross a b p ≤ 0
      · simp only [popChain, if_pos h]
        calc (popChain (a :: rest2) p).length ≤ (a :: rest2).length := ih
          _ ≤ (b :: a :: rest2).length := by simp
      · simp [popChain, h]

theorem length_foldl_chainStep_le (l : List Pt) :
    ∀ st : List Pt, (l.foldl chainStep st).length ≤ st.length + l.length := by
  induction l with
  | nil => intro st; simp
  | cons p ps ih =>
    intro st
    calc (ps.foldl chainStep (chainStep st p)).length
        ≤ (chainStep st p).length + ps.length := ih _
      _ ≤ (st.length + 1) + ps.length := by
          have := length_popChain_le st p
          simp only [chainStep, List.length_cons]; omega
      _ = st.length + (p :: ps).length := by simp; omega

theorem length_chainFold_le (l : List Pt) : (chainFold l).length ≤ l.length := by
  have := length_foldl_chainStep_le l []
  simpa [chainFold] using this

theorem length_monotoneChainHull_le (pts : List Pt) :
    (monotoneChainHull pts).length ≤ 2 * pts.length - 2 := by
  have h1 := length_chainFold_le (sortPts pts)
  have h2 := length_chainFold_le (sortPts pts).reverse
  simp only [monotoneChainHull, List.length_append, List.length_dropLast,
    List.length_reverse] at *
  rw [length_sortPts] at h1 h2
  omega

/-- The indexed loop `for i in range(len(K) - 1)` enumerates exactly the
consecutive vertex pairs, excluding the wrap-around edge. -/
theorem range_map_consecutive (g : Pt → Pt → ℚ) :
    ∀ l : List Pt,
      (List.range (l.length - 1)).map
          (fun i => g (l.getD i (0, 0)) (l.getD (i + 1) (0, 0))) =
        List.zipWith g l l.tail
  | [] => by simp
  | [x] => by simp
  | x :: y :: xs => by
    have ih := range_map_consecutive g (y :: xs)
    simp only [List.length_cons, Nat.add_sub_cancel] at ih ⊢
    rw [List.range_succ_eq_map, List.map_cons, List.map_map]
    have hfun :
        ((fun i => g ((x :: y :: xs).getD i (0, 0)) ((x :: y :: xs).getD (i + 1) (0, 0)))
            ∘ Nat.succ)
          = fun i => g ((y :: xs).getD i (0, 0)) ((y :: xs).getD (i + 1) (0, 0)) := by
      funext i
      rfl
    rw [hfun, ih]
    rfl

theorem edgeNoise_eq_specEdgeCandidate (hull : List Pt) (p q : Pt) :
    edgeNoise hull p q = specEdgeCandidate hull p q := by
  simp only [edgeNoise, specEdgeCandidate]
  split_ifs with h1 h2 h3 h4 h5 <;> first
    | rfl
    | (exact absurd h3 (not_le.mpr h2))
    | (exact absurd (not_lt.mp h2) (not_le.mpr (by assumption)))
    | linarith [abs_nonneg ((q.1 - p.1) * big13)]

/-- Helper for claim C1: under the hull hypothesis, `calculate_max_noise`
reduces to the minimum of the per-edge candidates over consecutive vertex
pairs, of which there are exactly `m - 1`. -/
theorem calcNoise_min_over_edges (pts hull : List Pt)
    (h : scipyConvexHullVertices pts = .ok hull) :
    calculate_max_noise pts =
        .ok (listMin (List.zipWith (specEdgeCandidate hull) hull hull.tail)) ∧
      3 ≤ hull.length ∧
      (List.zipWith (specEdgeCandidate hull) hull hull.tail).length
        = hull.length - 1 := by
  have hdef : monotoneChainHull pts = hull ∧ ¬ (monotoneChainHull pts).length < 3 := by
    by_cases hlen : (monotoneChainHull pts).length < 3
    · simp [scipyConvexHullVertices, hlen] at h
    · refine ⟨?_, hlen⟩
      simpa [scipyConvexHullVertices, hlen] using h
  have hull3 : 3 ≤ hull.length := by
    rw [← hdef.1]; omega
  have hpts3 : ¬ pts.length < 3 := by
    intro hlt
    have := length_monotoneChainHull_le pts
    rw [hdef.1] at this
    omega
  refine ⟨?_, hull3, by simp [List.length_zipWith]⟩
  rw [calculate_max_noise, if_neg hpts3, h]
  simp only [Except.map, calcNoiseFromHull, noiseList]
  rw [show (fun i => edgeNoise hull (hull.getD i (0, 0)) (hull.getD (i + 1) (0, 0)))
        = fun i => specEdgeCandidate hull (hull.getD i (0, 0)) (hull.getD (i + 1) (0, 0))
      from funext fun i => edgeNoise_eq_specEdgeCandidate hull _ _]
  rw [range_map_consecutive (specEdgeCandidate hull) hull]

/-! ## Degenerate (collinear) input raises through the hull -/

/-- On an all-collinear point set the chain stack never grows beyond 2:
whenever two points are on the stack, the next point's turn test is
`cross = 0 ≤ 0` and pops. -/
theorem foldl_chainStep_collinear (S : List Pt)
    (hS : ∀ a ∈ S, ∀ b ∈ S, ∀ c ∈ S, cross a b c = 0) :
    ∀ l st : List Pt, (∀ x ∈ l, x ∈ S) → (∀ x ∈ st, x ∈ S) → st.length ≤ 2 →
      (l.foldl chainStep st).length ≤ 2 ∧ ∀ x ∈ l.foldl chainStep st, x ∈ S := by
  intro l
  induction l with
  | nil => intro st _ hstS hst2; exact ⟨hst2, hstS⟩
  | cons p ps ih =>
    intro st hl hstS hst2
    have hp : p ∈ S := hl p (by simp)
    have hps : ∀ x ∈ ps, x ∈ S := fun x hx => hl x (by simp [hx])
    have hstep : (chainStep st p).length ≤ 2 ∧ ∀ x ∈ chainStep st p, x ∈ S := by
      rcases st with _ | ⟨b, _ | ⟨a, _ | ⟨z, zs⟩⟩⟩
      · refine ⟨by simp [chainStep, popChain], ?_⟩
        intro x hx
        have hxp : x = p := by simpa [chainStep, popChain] using hx
        exact hxp ▸ hp
      · refine ⟨by simp [chainStep, popChain], ?_⟩
        intro x hx
        have hxpb : x = p ∨ x = b := by simpa [chainStep, popChain] using hx
        rcases hxpb with h | h
        · exact h ▸ hp
        · exact h ▸ hstS b (by simp)
      · have ha : a ∈ S := hstS a (by simp)
        have hb : b ∈ S := hstS b (by simp)
        have hzero : cross a b p ≤ 0 := le_of_eq (hS a ha b hb p hp)
        refine ⟨by simp [chainStep, popChain, hzero], ?_⟩
        intro x hx
        have hxpa : x = p ∨ x = a := by simpa [chainStep, popChain, hzero] using hx
        rcases hxpa with h | h
        · exact h ▸ hp
        · exact h ▸ ha
      · simp at hst2
    simpa [List.foldl_cons] using ih (chainStep st p) hps hstep.2 hstep.1

/-- All-collinear input has a flat hull, so the scipy model raises. -/
theorem collinear_hull_degenerate (pts : List Pt)
    (hcol : ∀ a ∈ pts, ∀ b ∈ pts, ∀ c ∈ pts, cross a b c = 0) :
    scipyConvexHullVertices pts = .error "QhullError" := by
  have hlow := foldl_chainStep_collinear pts hcol (sortPts pts) []
    (fun x hx => mem_sortPts.mp hx) (by simp) (by simp)
  have hup := foldl_chainStep_collinear pts hcol (sortPts pts).reverse []
    (fun x hx => mem_sortPts.mp (List.mem_reverse.mp hx)) (by simp) (by simp)
  have hshort : (monotoneChainHull pts).length < 3 := by
    have h1 := hlow.1
    have h2 := hup.1
    simp only [chainFold] at h1 h2
    simp only [monotoneChainHull, chainFold, List.length_append,
      List.length_dropLast, List.length_reverse]
    omega
  simp [scipyConvexHullVertices, hshort]

/-! ## Claim C1 -/

/-- The hull the model computes for `ptsBoundary` (counter-clockwise from the
lexicographic minimum); its first edge has `dx = 1e-26, dy = 0`, so the guard
direction applies and `cos = dx·1e13 = 1e-13` exactly. -/
def hullBoundary : List Pt := [(0, 0), (mkRat 1 (10 ^ 26), 0), (mkRat 1 (2 * 10 ^ 26), 1)]

/-- C1 (counterexample to the claim as stated): on a point set whose hull's
first edge has `|cos| = 1e-13` exactly, the code uses the sentinel `1e13`
while the claim's formula ("sentinel when `|cos| < 1e-13`") divides and gets
`1`, so `calculate_max_noise` does not return the value the claim describes;
the last two conjuncts isolate the disagreement to that single edge. -/
theorem c1_boundary_counterexample :
    calculate_max_noise ptsBoundary = .ok big13 ∧
      claimedMaxNoiseStrict ptsBoundary = .ok 1 ∧
      calculate_max_noise ptsBoundary ≠ claimedMaxNoiseStrict ptsBoundary ∧
      scipyConvexHullVertices ptsBoundary = .ok hullBoundary ∧
      edgeNoise hullBoundary (0, 0) (mkRat 1 (10 ^ 26), 0) = big13 ∧
      claimEdgeCandidateStrict hullBoundary (0, 0) (mkRat 1 (10 ^ 26), 0) = 1 := by
  refine ⟨by decide, by decide, by decide, by decide, by decide, by decide⟩

/-- C1 (amended): for every point subset whose convex hull is non-degenerate
(`m ≥ 3` vertices), `calculate_max_noise` returns the minimum, over exactly
the `m-1` hull edges joining consecutive hull vertices `0..m-2` to `1..m-1`
(the wrap-around edge excluded), of the absolute value of the rotated
vertical extent divided by the edge's direction cosine, using the guard
direction `(dx·1e13, dy·1e13)` when the edge length is below `1e-13` and the
sentinel `1e13` instead of dividing when `|cos| ≤ 1e-13` (the code divides
only for `|cos| > 1e-13`). -/
theorem c1_min_over_edges (pts hull : List Pt)
    (h : scipyConvexHullVertices pts = .ok hull) :
    calculate_max_noise pts =
        .ok (listMin (List.zipWith (specEdgeCandidate hull) hull hull.tail)) ∧
      3 ≤ hull.length ∧
      (List.zipWith (specEdgeCandidate hull) hull hull.tail).length
        = hull.length - 1 :=
  calcNoise_min_over_edges pts hull h

/-- A 3-4-5 right triangle instantiating `c1_min_over_edges`. -/
def triFix : List Pt := [(0, 0), (4, 0), (0, 3)]

/-- Witness for C1's amended theorem at the concrete triangle `triFix`. -/
theorem c1_min_over_edges_witness :
    calculate_max_noise triFix =
        .ok (listMin (List.zipWith (specEdgeCandidate triFix) triFix triFix.tail)) ∧
      3 ≤ triFix.length ∧
      (List.zipWith (specEdgeCandidate triFix) triFix triFix.tail).length
        = triFix.length - 1 :=
  c1_min_over_edges triFix triFix (by decide)

/-! ## Claim C2 -/

/-- Three collinear points. -/
def collinear3 : List Pt := [(0, 0), (1, 1), (2, 2)]

/-- Four collinear points. -/
def collinear4 : List Pt := [(0, 0), (1, 2), (2, 4), (3, 6)]

/-- C2 (counterexample): on three collinear points `calculate_max_noise`
raises `QhullError` (propagated from the hull construction) instead of
returning the valid result `0.0` the claim describes. -/
theorem c2_collinear_counterexample :
    calculate_max_noise collinear3 = .error "QhullError" ∧
      calculate_max_noise collinear3 ≠ .ok 0 := by
  refine ⟨by decide, by decide⟩

/-- C2 (amended): for every subset of more than two collinear points the
convex hull construction raises `QhullError`, which `calculate_max_noise`
propagates (upstream, the per-file exception handler catches it and drops the
whole file's records); `0.0` is returned only for subsets with fewer than
three points. -/
theorem c2_collinear_raises (pts : List Pt) (h3 : 3 ≤ pts.length)
    (hcol : ∀ a ∈ pts, ∀ b ∈ pts, ∀ c ∈ pts, cross a b c = 0) :
    calculate_max_noise pts = .error "QhullError" := by
  rw [calculate_max_noise, if_neg (by omega), collinear_hull_degenerate pts hcol]
  rfl

/-- Witness for C2's amended theorem at four concrete collinear points. -/
theorem c2_collinear_raises_witness :
    3 ≤ collinear4.length ∧ calculate_max_noise collinear4 = .error "QhullError" :=
  ⟨by decide, c2_collinear_raises collinear4 (by decide) (by decide)⟩

/-! ## Claim C6 -/

/-- The two-row file whose sampling interval is exactly `1e-9`. -/
def rowsDtBoundary : List Row := [(0, 0, 0), (mkRat 1 (10 ^ 9), 0, 0)]

/-- C6 (counterexample to the claim as stated): at `d = 1e-9` exactly, the
code takes the fallback (`delta_val > 1e-9` is false) and returns
`max(3, floor(30/0.15)) = 200`, while the claim's rule ("fallback exactly
when `d < 1e-9`") keeps `d` and yields `30·10⁹`. -/
theorem c6_boundary_counterexample :
    calculate_subset_size rowsDtBoundary = 200 ∧
      claimedSubsetSizeStrict rowsDtBoundary = 30000000000 ∧
      calculate_subset_size rowsDtBoundary ≠ claimedSubsetSizeStrict rowsDtBoundary := by
  refine ⟨by decide, by decide, by decide⟩

/-- C6 (amended): for every loaded file, fewer than 2 samples gives subset
size 100, and otherwise the size is `max(3, floor(30/d'))` where
`d = |t[1]−t[0]|` comes from the file's own raw times and `d' = 0.15`
exactly when `d ≤ 1e-9` (else `d' = d`). -/
theorem c6_subset_size (rows : List Row) :
    calculate_subset_size rows = claimedSubsetSizeAmended rows := by
  rw [calculate_subset_size, claimedSubsetSizeAmended]
  by_cases hlen : rows.length < 2
  · simp [hlen]
  · simp only [hlen, if_false]
    rcases le_or_lt (qabs (qsub (rows.getD 1 (0, 0, 0)).1 (rows.getD 0 (0, 0, 0)).1)) eps9 with h | h
    · rw [if_neg (not_lt.mpr h), if_pos h]
    · rw [if_pos h, if_neg (not_le.mpr h)]

/-! ## Claim C3 -/

/-- C3 (code bug, evaluated at the failing input): for the single file
`file0` (raw times 0,10,20; stitched offset 0), the claim requires records at
`(0, 20)`.  `data_processor.process_single_file` computes
`time_offset_adjustment = new_time_offset - (offset_times[-1] - times[-1])`,
which equals the file's own last raw time (20), so its records come out at
`(20, 40)`; the sibling code in ASTMnoise.py uses
`file_start_offset = time_offset` and produces `(0, 20)` as claimed. -/
theorem c3_offset_formula_wrong :
    stDP0.main_noise_intervals.map (fun r => (r.start_time, r.end_time)) = [(20, 40)] ∧
      stDP0.ref_noise_intervals.map (fun r => (r.start_time, r.end_time)) = [(20, 40)] ∧
      stA0.main_noise_intervals.map (fun r => (r.start_time, r.end_time)) = [(0, 20)] ∧
      stA0.ref_noise_intervals.map (fun r => (r.start_time, r.end_time)) = [(0, 20)] := by
  refine ⟨by decide, by decide, by decide, by decide⟩

/-! ## Claim C5 -/

/-- The early-stop check can never return `.ok true`: it only returns `.ok`
when both interval lists are empty, and then the counts are 0. -/
theorem astm_early_stop_never_true (m r : List IntervalRec) (b : Bool)
    (h : astm_early_stop_check m r = .ok b) : b = false := by
  rw [astm_early_stop_check] at h
  split_ifs at h
  exact (Except.ok.inj h).symm

/-- C5 (code bug): the break of the monolithic loop is dead code — the body
never sets the stop flag (the check raises `UnboundLocalError`, swallowed by
the blanket handler), so processing never stops at 120 in-window intervals;
moreover every file that yields an interval is reported as an error even
though its records are kept, as the concrete run of `file0` shows. -/
theorem c5_early_stop_dead :
    (∀ (st : DPState) (off : ℚ) (idx : ℕ) (fi : FileInput),
        (astm_file_body st off idx fi).2.2 = false) ∧
      (astm_run [file0]).warnings = ["f0.txt: UnboundLocalError"] ∧
      (astm_run [file0]).main_noise_intervals.length = 1 := by
  refine ⟨?_, by decide, by decide⟩
  intro st off idx fi
  obtain ⟨name, data⟩ := fi
  match data with
  | .error e => rfl
  | .ok [] => rfl
  | .ok (r :: rows) =>
    rw [astm_file_body]
    dsimp only
    split
    · rfl
    · split
      · rfl
      · split
        · rename_i b hb
          exact astm_early_stop_never_true _ _ b hb
        · rfl

/-! ## Claim C8 -/

/-- One failing file leaves the processor state unchanged except for the
warning: `dp_process_single_file` returns the incoming offset, `False`, and
the state with only the filename bookkeeping and the warning added. -/
theorem dp_process_single_file_error (st : DPState) (name e : String) (idx : ℕ)
    (off : ℚ) :
    dp_process_single_file st ⟨name, .error e⟩ idx off =
      (off, false,
        addWarning
          (if st.file_names.length ≤ idx
           then { st with file_names := st.file_names ++ [name] } else st)
          (name ++ ": " ++ e)) := rfl

/-- C8: a file whose read or parse fails is skipped without aborting: the
returned time offset is unchanged, the success flag is false, no noise values
or interval records are added for the file, a warning naming the file and the
reason is recorded, and the loop continues with the remaining files. -/
theorem c8_failed_file_skipped (st : DPState) (name e : String) (idx : ℕ)
    (off : ℚ) (m : ℕ) (rest : List FileInput) :
    (dp_process_single_file st ⟨name, .error e⟩ idx off).1 = off ∧
      (dp_process_single_file st ⟨name, .error e⟩ idx off).2.1 = false ∧
      ((dp_process_single_file st ⟨name, .error e⟩ idx off).2.2).all_main_noise_values
          = st.all_main_noise_values ∧
      ((dp_process_single_file st ⟨name, .error e⟩ idx off).2.2).all_ref_noise_values
          = st.all_ref_noise_values ∧
      ((dp_process_single_file st ⟨name, .error e⟩ idx off).2.2).main_noise_intervals
          = st.main_noise_intervals ∧
      ((dp_process_single_file st ⟨name, .error e⟩ idx off).2.2).ref_noise_intervals
          = st.ref_noise_intervals ∧
      ((dp_process_single_file st ⟨name, .error e⟩ idx off).2.2).warnings
          = st.warnings ++ [name ++ ": " ++ e] ∧
      (¬ dpStopCond st m →
        dp_process_files_go st off idx m (⟨name, .error e⟩ :: rest)
          = dp_process_files_go
              ((dp_process_single_file st ⟨name, .error e⟩ idx off).2.2)
              off (idx + 1) m rest) := by
  rw [dp_process_single_file_error]
  refine ⟨rfl, rfl, ?_, ?_, ?_, ?_, ?_, ?_⟩
  · simp only [addWarning]; split <;> rfl
  · simp only [addWarning]; split <;> rfl
  · simp only [addWarning]; split <;> rfl
  · simp only [addWarning]; split <;> rfl
  · simp only [addWarning]; split <;> rfl
  · intro hstop
    rw [dp_process_files_go, if_neg hstop, dp_process_single_file_error]

/-- Witness for C8 at a concrete missing file over the initial state. -/
theorem c8_failed_file_skipped_witness :
    (dp_process_single_file initState ⟨"gone.txt", .error "FileNotFoundError"⟩ 0 0).1 = 0 ∧
      (dp_process_single_file initState ⟨"gone.txt", .error "FileNotFoundError"⟩ 0 0).2.1
        = false ∧
      ((dp_process_single_file initState ⟨"gone.txt", .error "FileNotFoundError"⟩ 0 0).2.2).warnings
        = initState.warnings ++ ["gone.txt" ++ ": " ++ "FileNotFoundError"] ∧
      dp_process_files_go initState 0 0 120 [⟨"gone.txt", .error "FileNotFoundError"⟩]
        = dp_process_files_go
            ((dp_process_single_file initState ⟨"gone.txt", .error "FileNotFoundError"⟩ 0 0).2.2)
            0 1 120 [] := by
  have h := c8_failed_file_skipped initState "gone.txt" "FileNotFoundError" 0 0 120 []
  exact ⟨h.1, h.2.1, h.2.2.2.2.2.2.1, h.2.2.2.2.2.2.2 (by decide)⟩

/-! ## Claim C10 -/

/-- C10: the computed subset size is always at least 3 (100 for files with
fewer than 2 samples), every full-length subset the pipeline scores has
exactly that many points — more than two — and on such subsets
`calculate_max_noise` takes its hull branch, never the fewer-than-three-points
early return. -/
theorem c10_noise_branch_unreachable (rows : List Row) (points : List Pt)
    (s : List Pt) (hs : s ∈ fullSubsets points (calculate_subset_size rows)) :
    3 ≤ calculate_subset_size rows ∧ s.length = calculate_subset_size rows ∧
      2 < (s.map roundPt).length ∧
      calculate_max_noise (s.map roundPt) =
        (scipyConvexHullVertices (s.map roundPt)).map calcNoiseFromHull := by
  have h3 : 3 ≤ calculate_subset_size rows := by
    rw [calculate_subset_size]
    split
    · omega
    · exact le_max_left 3 _
  have hlen : s.length = calculate_subset_size rows := by
    rw [fullSubsets] at hs
    simp only [List.mem_map, List.mem_range] at hs
    obtain ⟨j, hj, rfl⟩ := hs
    have h1 : (j + 1) * calculate_subset_size rows
        ≤ (points.length / calculate_subset_size rows) * calculate_subset_size rows :=
      Nat.mul_le_mul_right _ (Nat.succ_le_of_lt hj)
    have h2 : (points.length / calculate_subset_size rows) * calculate_subset_size rows
        ≤ points.length := Nat.div_mul_le_self _ _
    have h4 : (j + 1) * calculate_subset_size rows
        = j * calculate_subset_size rows + calculate_subset_size rows := Nat.succ_mul _ _
    simp only [List.length_take, List.length_drop]
    omega
  refine ⟨h3, hlen, by simp only [List.length_map]; omega, ?_⟩
  rw [calculate_max_noise, if_neg (by simp only [List.length_map]; omega)]

/-- The Main-channel points of `rows0`, a single full subset of size 3. -/
def pointsFix : List Pt := [(0, 5), (10, 6), (20, 5)]

/-- Witness for C10 at the concrete subset `pointsFix` of `rows0`. -/
theorem c10_noise_branch_unreachable_witness :
    3 ≤ calculate_subset_size rows0 ∧ pointsFix.length = calculate_subset_size rows0 ∧
      2 < (pointsFix.map roundPt).length ∧
      calculate_max_noise (pointsFix.map roundPt) =
        (scipyConvexHullVertices (pointsFix.map roundPt)).map calcNoiseFromHull :=
  c10_noise_branch_unreachable rows0 pointsFix pointsFix (by decide)

/-! ## Claim C4 -/

/-- The append-collecting loop of the statistics block equals a filter
followed by a projection. -/
theorem extractWindowNoise_eq (rs : List IntervalRec) :
    extractWindowNoise rs =
      (rs.filter (fun r => decide (1800 ≤ r.start_time ∧ r.start_time ≤ 5400))).map
        (·.noise_value) := by
  suffices h : ∀ acc : List ℚ,
      rs.foldl
        (fun acc r =>
          if 1800 ≤ r.start_time ∧ r.start_time ≤ 5400 then acc ++ [r.noise_value] else acc)
        acc
      = acc ++ (rs.filter
          (fun r => decide (1800 ≤ r.start_time ∧ r.start_time ≤ 5400))).map
            (·.noise_value) by
    simpa [extractWindowNoise] using h []
  induction rs with
  | nil => simp
  | cons r rs ih =>
    intro acc
    by_cases hr : 1800 ≤ r.start_time ∧ r.start_time ≤ 5400
    · simp [hr, List.filter_cons, ih, List.append_assoc]
    · simp [hr, List.filter_cons, ih]

/-- A fixture record sitting inside the analysis window. -/
def recW : IntervalRec := ⟨2000, 2030, 2, 0, "Main", "w.txt"⟩

/-- A fixture state holding only the in-window record `recW`. -/
def stW : DPState :=
  { initState with main_noise_intervals := [recW], all_main_noise_values := [2] }

/-- C4 (counterexample to the claim as stated): after processing `file0`, the
only Main record starts at 20 stitched seconds — outside `[1800, 5400]` — yet
`get_statistics` still counts it (count 1, mean over it), because it
truncates the raw value lists with no window filter. -/
theorem c4_stats_window_counterexample :
    stDP0.main_noise_intervals.map (·.start_time) = [20] ∧
      (dp_get_statistics stDP0 120).main_count = 1 ∧
      (dp_get_statistics stDP0 120).main_mean = some 1 ∧
      ¬ (1800 ≤ (20 : ℚ) ∧ (20 : ℚ) ≤ 5400) := by
  refine ⟨by decide, by decide, by decide, by decide⟩

/-- C4 (amended): the monolithic statistics block computes mean/max/count
over the first 120 noise values of records whose `start_time` lies in
`[1800, 5400]`, kept as an order-preserving sublist of the record sequence
(no re-sorting); `data_processor.get_statistics` instead computes them over
the first `max_intervals` collected values with no window filtering. -/
theorem c4_statistics_windows (st : DPState) (m : ℕ) :
    astm_get_statistics st =
        mkNoiseStats
          (((st.main_noise_intervals.filter
              (fun r => decide (1800 ≤ r.start_time ∧ r.start_time ≤ 5400))).map
                (·.noise_value)).take 120)
          (((st.ref_noise_intervals.filter
              (fun r => decide (1800 ≤ r.start_time ∧ r.start_time ≤ 5400))).map
                (·.noise_value)).take 120) ∧
      (((st.main_noise_intervals.filter
            (fun r => decide (1800 ≤ r.start_time ∧ r.start_time ≤ 5400))).map
              (·.noise_value)).take 120).Sublist
          (st.main_noise_intervals.map (·.noise_value)) ∧
      (∀ r ∈ st.main_noise_intervals.filter
            (fun r => decide (1800 ≤ r.start_time ∧ r.start_time ≤ 5400)),
          1800 ≤ r.start_time ∧ r.start_time ≤ 5400) ∧
      dp_get_statistics st m =
        mkNoiseStats (st.all_main_noise_values.take m) (st.all_ref_noise_values.take m) := by
  refine ⟨?_, ?_, ?_, ?_⟩
  · rw [astm_get_statistics, extractWindowNoise_eq, extractWindowNoise_eq, mkNoiseStats]
  · exact (List.take_sublist _ _).trans ((List.filter_sublist _).map _)
  · intro r hr
    exact of_decide_eq_true (List.mem_filter.mp hr).2
  · rw [dp_get_statistics, mkNoiseStats]

/-- Witness for C4 at the concrete in-window state `stW`. -/
theorem c4_statistics_windows_witness :
    astm_get_statistics stW = mkNoiseStats [2] [] ∧
      (1800 ≤ recW.start_time ∧ recW.start_time ≤ 5400) :=
  ⟨((c4_statistics_windows stW 120).1).trans (by decide),
   (c4_statistics_windows stW 120).2.2.1 recW (by decide)⟩

/-! ## Claim C7 -/

theorem mem_insertDescBy {α : Type _} (key : α → ℚ) (b : α) (l : List α) (a : α) :
    a ∈ insertDescBy key b l ↔ a = b ∨ a ∈ l := by
  induction l with
  | nil => simp [insertDescBy]
  | cons c cs ih =>
    by_cases h : key c ≤ key b
    · simp [insertDescBy, h]
    · simp [insertDescBy, h, ih]; tauto

theorem mem_sortDescBy {α : Type _} (key : α → ℚ) (l : List α) (a : α) :
    a ∈ sortDescBy key l ↔ a ∈ l := by
  induction l with
  | nil => simp [sortDescBy]
  | cons c cs ih => simp [sortDescBy, mem_insertDescBy, ih]

theorem mem_pySliceTake {α : Type _} (n : ℤ) (l : List α) (a : α)
    (h : a ∈ pySliceTake n l) : a ∈ l := by
  rw [pySliceTake] at h
  split_ifs at h <;> exact List.take_subset _ _ h

theorem updGroup_start (g : NGroup) (r : IntervalRec) :
    (updGroup g r).start_time = g.start_time := rfl

theorem addRec_start (gs : List NGroup) (r : IntervalRec) (g : NGroup)
    (h : g ∈ addRec gs r) :
    g.start_time = r.start_time ∨ ∃ g0 ∈ gs, g.start_time = g0.start_time := by
  induction gs with
  | nil =>
    left
    have : g = updGroup (newGroup r) r := by simpa [addRec] using h
    rw [this, updGroup_start]; rfl
  | cons g0 gs ih =>
    rw [addRec] at h
    split_ifs at h with hc
    · rcases List.mem_cons.mp h with h1 | h1
      · right; exact ⟨g0, by simp, by rw [h1, updGroup_start]⟩
      · right; exact ⟨g, by simp [h1], rfl⟩
    · rcases List.mem_cons.mp h with h1 | h1
      · right; exact ⟨g0, by simp, by rw [h1]⟩
      · rcases ih h1 with h2 | ⟨g1, hg1, h2⟩
        · exact Or.inl h2
        · exact Or.inr ⟨g1, by simp [hg1], h2⟩

theorem foldl_addRec_start (g : NGroup) :
    ∀ (rs : List IntervalRec) (acc : List NGroup), g ∈ rs.foldl addRec acc →
      (∃ g0 ∈ acc, g.start_time = g0.start_time) ∨
        ∃ r ∈ rs, g.start_time = r.start_time := by
  intro rs
  induction rs with
  | nil =>
    intro acc h2
    exact Or.inl ⟨g, by simpa using h2, rfl⟩
  | cons r rs ih =>
    intro acc h2
    rcases ih (addRec acc r) (by simpa using h2) with ⟨g0, hg0, heq⟩ | ⟨r0, hr0, heq⟩
    · rcases addRec_start acc r g0 hg0 with h3 | ⟨g1, hg1, h3⟩
      · right; exact ⟨r, by simp, heq.trans h3⟩
      · left; exact ⟨g1, hg1, heq.trans h3⟩
    · right; exact ⟨r0, by simp [hr0], heq⟩

theorem groupRecords_start (rs : List IntervalRec) (g : NGroup)
    (h : g ∈ groupRecords rs) : ∃ r ∈ rs, g.start_time = r.start_time := by
  rcases foldl_addRec_start g rs [] (by simpa [groupRecords] using h) with
    ⟨g0, hg0, _⟩ | h2
  · simp at hg0
  · exact h2

/-- Every group the selector emits starts inside the hardcoded window bounds
used to filter the records. -/
theorem highNoiseGroups_start_bounds (recs : List IntervalRec) (lo hi : ℚ)
    (n : ℤ) (thr : Option ℚ) (g : NGroup)
    (h : g ∈ highNoiseGroups recs lo hi n thr) :
    lo ≤ g.start_time ∧ g.start_time ≤ hi := by
  unfold highNoiseGroups at h
  have hg := (mem_sortDescBy _ _ _).mp h
  obtain ⟨r, hr, heq⟩ := groupRecords_start _ _ hg
  have hrf : r ∈ recs.filter (fun r => decide (lo ≤ r.start_time ∧ r.start_time ≤ hi)) := by
    rcases thr with _ | t
    · exact (mem_sortDescBy _ _ _).mp (mem_pySliceTake _ _ _ hr)
    · exact List.mem_of_mem_filter ((mem_sortDescBy _ _ _).mp hr)
  rw [heq]
  exact of_decide_eq_true (List.mem_filter.mp hrf).2

/-- The single group produced by the modular selector for `stDP0`. -/
def grpDP : NGroup := ⟨20, 40, 0, "f0.txt", some 1, some 1, 1⟩

/-- The single group produced by the monolithic selector for `stW`. -/
def grpW : NGroup := ⟨2000, 2030, 0, "w.txt", some 2, none, 2⟩

/-- C7 (counterexample to the claim as stated): the modular selector selects
the record starting at 20 stitched seconds, which is outside the statistics
AnalysisWindow `[1800, 5400]`. -/
theorem c7_out_of_window_selected :
    (dp_get_high_noise_intervals stDP0 5 none).map (·.start_time) = [20] ∧
      ¬ (1800 ≤ (20 : ℚ) ∧ (20 : ℚ) ≤ 5400) := by
  refine ⟨by decide, by decide⟩

/-- C7 (amended): each selector only ever selects records from its own
hardcoded window — `[0, 3600]` for `data_processor.get_high_noise_intervals`
and the analysis window `[1800, 5400]` for the monolithic selector; neither
accepts a caller-specified window. -/
theorem c7_selector_windows (st : DPState) (n : ℤ) (thr : Option ℚ) (g : NGroup) :
    (g ∈ dp_get_high_noise_intervals st n thr →
        0 ≤ g.start_time ∧ g.start_time ≤ 3600) ∧
      (g ∈ astm_high_noise_groups st n thr →
        1800 ≤ g.start_time ∧ g.start_time ≤ 5400) :=
  ⟨fun h => highNoiseGroups_start_bounds _ _ _ _ _ _ h,
   fun h => highNoiseGroups_start_bounds _ _ _ _ _ _ h⟩

/-- Witness for C7 at the concrete states `stDP0` and `stW`. -/
theorem c7_selector_windows_witness :
    (0 ≤ grpDP.start_time ∧ grpDP.start_time ≤ 3600) ∧
      (1800 ≤ grpW.start_time ∧ grpW.start_time ≤ 5400) :=
  ⟨(c7_selector_windows stDP0 5 none grpDP).1 (by decide),
   (c7_selector_windows stW 5 none grpW).2 (by decide)⟩

/-! ## Claim C9 -/

theorem length_insertDescBy {α : Type _} (key : α → ℚ) (a : α) (l : List α) :
    (insertDescBy key a l).length = l.length + 1 := by
  induction l with
  | nil => rfl
  | cons c cs ih => by_cases h : key c ≤ key a <;> simp [insertDescBy, h, ih]

theorem length_sortDescBy {α : Type _} (key : α → ℚ) (l : List α) :
    (sortDescBy key l).length = l.length := by
  induction l with
  | nil => rfl
  | cons c cs ih => simp [sortDescBy, length_insertDescBy, ih]

theorem pySliceTake_zero {α : Type _} (l : List α) : pySliceTake 0 l = [] := by
  simp [pySliceTake]

theorem pySliceTake_le_neg_len {α : Type _} (n : ℤ) (l : List α)
    (h : n ≤ -(l.length : ℤ)) : pySliceTake n l = [] := by
  rw [pySliceTake]
  split_ifs with h0
  · have hlen : l.length = 0 := by omega
    rw [List.length_eq_zero.mp hlen]
    simp
  · have : ((l.length : ℤ) + n).toNat = 0 := by omega
    simp [this]

theorem pySliceTake_ge_len {α : Type _} (n : ℤ) (l : List α)
    (h : (l.length : ℤ) ≤ n) : pySliceTake n l = l := by
  rw [pySliceTake, if_pos (by omega)]
  exact List.take_of_length_le (by omega)

/-- A record list fixture for the top-K claim: two in-window Main records. -/
def recK1 : IntervalRec := ⟨100, 130, 5, 0, "Main", "c.txt"⟩

/-- Second fixture record, lower noise than `recK1`. -/
def recK2 : IntervalRec := ⟨200, 230, 3, 0, "Main", "c.txt"⟩

/-- A state carrying exactly the two fixture records. -/
def stK : DPState := { initState with main_noise_intervals := [recK1, recK2] }

/-- C9 (counterexample to the claim as stated): with two candidate records
and `K = -1`, Python's `sorted_intervals[:n_intervals]` keeps all but the
last sorted candidate, so the selector returns one group — not the empty
list the claim requires for every `K ≤ 0`. -/
theorem c9_negative_k_counterexample :
    (dp_get_high_noise_intervals stK (-1) none).map (·.start_time) = [100] ∧
      (dp_get_high_noise_intervals stK (-1) none).length ≠ 0 := by
  refine ⟨by decide, by decide⟩

/-- C9 (amended): in top-K mode, `K = 0` selects nothing; a negative `K`
keeps all but the last `|K|` of the descending-sorted candidates (Python
slice semantics), so it selects nothing exactly when `|K|` reaches the
candidate count; and any `K` at least the candidate count keeps every
candidate (the groups of the full sorted candidate list). -/
theorem c9_topk_bounds (st : DPState) (n : ℤ) :
    dp_get_high_noise_intervals st 0 none = [] ∧
      (n ≤ -((((st.main_noise_intervals ++ st.ref_noise_intervals).filter
            (fun r => decide (0 ≤ r.start_time ∧ r.start_time ≤ 3600))).length : ℤ)) →
        dp_get_high_noise_intervals st n none = []) ∧
      (((((st.main_noise_intervals ++ st.ref_noise_intervals).filter
            (fun r => decide (0 ≤ r.start_time ∧ r.start_time ≤ 3600))).length : ℤ)) ≤ n →
        dp_get_high_noise_intervals st n none =
          sortDescBy (·.max_noise) (groupRecords (sortDescBy (·.noise_value)
            ((st.main_noise_intervals ++ st.ref_noise_intervals).filter
              (fun r => decide (0 ≤ r.start_time ∧ r.start_time ≤ 3600)))))) := by
  refine ⟨?_, ?_, ?_⟩
  · rw [dp_get_high_noise_intervals]
    unfold highNoiseGroups
    dsimp only
    rw [pySliceTake_zero]
    rfl
  · intro hn
    rw [dp_get_high_noise_intervals]
    unfold highNoiseGroups
    dsimp only
    rw [pySliceTake_le_neg_len _ _ (by rw [length_sortDescBy]; exact hn)]
    rfl
  · intro hn
    rw [dp_get_high_noise_intervals]
    unfold highNoiseGroups
    dsimp only
    rw [pySliceTake_ge_len _ _ (by rw [length_sortDescBy]; exact hn)]

/-- Witness for C9 at the concrete state `stK` with `K = 5 ≥ 2` candidates. -/
theorem c9_topk_bounds_witness :
    dp_get_high_noise_intervals stK 0 none = [] ∧
      dp_get_high_noise_intervals stK 5 none =
        sortDescBy (·.max_noise) (groupRecords (sortDescBy (·.noise_value)
          ((stK.main_noise_intervals ++ stK.ref_noise_intervals).filter
            (fun r => decide (0 ≤ r.start_time ∧ r.start_time ≤ 3600))))) :=
  ⟨(c9_topk_bounds stK 5).1, (c9_topk_bounds stK 5).2.2 (by decide)⟩

/-! ## Soundness of the exact-arithmetic translation

The source works with `norm_vector = √(dx²+dy²)`; `edgeNoise` replaces every
use of that square root by an exactly equivalent square comparison or a
cancelled division.  The lemmas below, over `ℝ`, establish each replacement:
the outer guard (`sqrt_lt_iff_sq_lt`), the `abs(cos) > 1e-13` test
(`abs_div_sqrt_gt_iff`), the rotated y-coordinate (`rotated_y_div`), the
extent of the scaled coordinates (`foldl_max_map_div`, `foldl_min_map_div`),
and the final tilt-correcting division (`extent_div_cancel`). -/

theorem sqrt_lt_iff_sq_lt (a e : ℝ) (he : 0 < e) :
    Real.sqrt a < e ↔ a < e * e := by
  rw [show e * e = e ^ 2 by ring]
  exact Real.sqrt_lt' he

theorem abs_div_sqrt_gt_iff (dx s e : ℝ) (he : 0 < e) (hs : 0 < s) :
    e < |dx / Real.sqrt s| ↔ e * e * s < dx * dx := by
  have hn : 0 < Real.sqrt s := Real.sqrt_pos.mpr hs
  rw [abs_div, abs_of_nonneg (Real.sqrt_nonneg s), lt_div_iff₀ hn]
  constructor <;> intro h <;>
    nlinarith [Real.mul_self_sqrt hs.le, abs_mul_abs_self dx, abs_nonneg dx,
      mul_pos he hn, Real.sqrt_nonneg s]

theorem rotated_y_div (dx dy n x y : ℝ) :
    (dy / n) * x + (dx / n) * y = (dy * x + dx * y) / n := by
  rw [div_mul_eq_mul_div, div_mul_eq_mul_div, div_add_div_same]

theorem foldl_max_map_div (c : ℝ) (hc : 0 < c) :
    ∀ (l : List ℝ) (a : ℝ), (l.map (· / c)).foldl max (a / c) = l.foldl max a / c := by
  intro l
  induction l with
  | nil => intro a; rfl
  | cons x xs ih =>
    intro a
    simp only [List.map_cons, List.foldl_cons, max_div_div_right hc.le]
    exact ih (max a x)

theorem foldl_min_map_div (c : ℝ) (hc : 0 < c) :
    ∀ (l : List ℝ) (a : ℝ), (l.map (· / c)).foldl min (a / c) = l.foldl min a / c := by
  intro l
  induction l with
  | nil => intro a; rfl
  | cons x xs ih =>
    intro a
    simp only [List.map_cons, List.foldl_cons, min_div_div_right hc.le]
    exact ih (min a x)

theorem extent_div_cancel (mx mn dx n : ℝ) (hn : n ≠ 0) :
    (mx / n - mn / n) / (dx / n) = (mx - mn) / dx := by
  rcases eq_or_ne dx 0 with h | h
  · simp [h]
  · field_simp

/-- Closed instance of the translation-soundness lemmas at concrete reals. -/
theorem translation_soundness_instance :
    (Real.sqrt 2 < 3 ↔ (2 : ℝ) < 3 * 3) ∧
      ((1 : ℝ) < |4 / Real.sqrt 25| ↔ (1 : ℝ) * 1 * 25 < 4 * 4) ∧
      (((3 : ℝ) / 5 - 1 / 5) / (4 / 5) = (3 - 1) / 4) := by
  refine ⟨sqrt_lt_iff_sq_lt 2 3 (by norm_num), ?_, extent_div_cancel 3 1 4 5 (by norm_num)⟩
  exact abs_div_sqrt_gt_iff 4 25 1 (by norm_num) (by norm_num)

/-! ## Interval record times emitted by `process_subsets`

Supporting fact for claim C3: every record `process_subsets` emits carries
the subset's first/last *rounded* sample time plus the offset it was given
(`file_start_offset` in ASTMnoise.py, the buggy `time_offset_adjustment` in
data_processor.py), with the given channel, file index and filename. -/

/-- The record contract of the subset loop, stated for the underlying
`foldlM` over any chunk list and accumulator. -/
theorem foldlM_subsets_record_times (channel : String) (file_index : ℕ)
    (adj : ℚ) (fname : String) :
    ∀ (chunks : List (List Pt)) (acc vals : List ℚ × List IntervalRec),
      chunks.foldlM (subsetStep channel file_index adj fname) acc = .ok vals →
      ∀ r ∈ vals.2, r ∈ acc.2 ∨ ∃ chunk ∈ chunks,
        r.start_time = qadd ((chunk.map roundPt).getD 0 (0, 0)).1 adj ∧
          r.end_time = qadd ((chunk.map roundPt).getLastD (0, 0)).1 adj ∧
          r.channel = channel ∧ r.file_index = file_index ∧ r.filename = fname := by
  intro chunks
  induction chunks with
  | nil =>
    intro acc vals h r hr
    left
    obtain rfl : acc = vals := by simpa [List.foldlM_nil, pure, Except.pure] using h
    exact hr
  | cons c cs ih =>
    intro acc vals h r hr
    rw [List.foldlM_cons] at h
    rcases hstep : subsetStep channel file_index adj fname acc c with e | acc2
    · rw [hstep] at h
      simp [Bind.bind, Except.bind] at h
    · rw [hstep] at h
      simp only [Bind.bind, Except.bind] at h
      rcases ih acc2 vals h r hr with hmem | ⟨chunk, hchunk, hprop⟩
      · rw [subsetStep] at hstep
        by_cases hlen : 2 < (c.map roundPt).length
        · simp only [if_pos hlen] at hstep
          rcases hnoise : calculate_max_noise (c.map roundPt) with e | v
          · rw [hnoise] at hstep
            simp [Bind.bind, Except.bind] at hstep
          · rw [hnoise] at hstep
            simp only [Bind.bind, Except.bind, Except.ok.injEq] at hstep
            rw [← hstep] at hmem
            rcases List.mem_append.mp hmem with h1 | h1
            · exact Or.inl h1
            · right
              refine ⟨c, by simp, ?_⟩
              have hre : r = ⟨qadd ((c.map roundPt).getD 0 (0, 0)).1 adj,
                  qadd ((c.map roundPt).getLastD (0, 0)).1 adj, v, file_index,
                  channel, fname⟩ := by simpa using h1
              rw [hre]
              exact ⟨rfl, rfl, rfl, rfl, rfl⟩
        · simp only [if_neg hlen, Except.ok.injEq] at hstep
          rw [← hstep] at hmem
          exact Or.inl hmem
      · exact Or.inr ⟨chunk, by simp [hchunk], hprop⟩

/-- Every record emitted by `process_subsets` starts at the subset's first
rounded time plus the given offset and ends at its last rounded time plus
that same offset. -/
theorem process_subsets_record_times (points : List Pt) (channel : String)
    (file_index : ℕ) (ss : ℕ) (adj : ℚ) (fname : String)
    (vals : List ℚ) (recs : List IntervalRec)
    (h : process_subsets points channel file_index ss adj fname = .ok (vals, recs)) :
    ∀ r ∈ recs, ∃ chunk ∈ fullSubsets points ss,
      r.start_time = qadd ((chunk.map roundPt).getD 0 (0, 0)).1 adj ∧
        r.end_time = qadd ((chunk.map roundPt).getLastD (0, 0)).1 adj ∧
        r.channel = channel ∧ r.file_index = file_index ∧ r.filename = fname := by
  intro r hr
  rcases foldlM_subsets_record_times channel file_index adj fname
      (fullSubsets points ss) ([], []) (vals, recs) (by simpa [process_subsets] using h)
      r hr with hmem | hfound
  · simp at hmem
  · exact hfound
